import Mathlib

/-!
The UUIDArray codec of `models/types/uuid_array.go`

A shallow embedding of `UUIDArray.Scan`, `UUIDArray.Value` and
`UUIDArray.GormDataType`, together with the parts of the Go standard library
(`strings`, `unicode`) that they call.

Modelling conventions.

* A Go `string` is modelled by a Lean `String`, i.e. by the sequence of Unicode
  code points of a valid UTF-8 text.  A `[]byte` is modelled by the text it holds,
  so that the conversion `string(v)` is the identity on the contents.
* A Go `error` is modelled by its message; `nil` is `none`.
* A method with a pointer receiver takes the receiver's old contents and returns
  the new contents next to its Go result.
* `uuid.Parse` belongs to an external library: `Scan` takes it as a parameter.
-/

set_option autoImplicit false

/-! ## Package `unicode` -/

namespace unicode

/-- The predicate `unicode.IsSpace`: the code points with the Unicode property
`White_Space`. -/
def IsSpace (r : Char) : Bool :=
  (0x09 ≤ r.toNat && r.toNat ≤ 0x0d) || r.toNat == 0x20 || r.toNat == 0x85 ||
  r.toNat == 0xa0 || r.toNat == 0x1680 || (0x2000 ≤ r.toNat && r.toNat ≤ 0x200a) ||
  r.toNat == 0x2028 || r.toNat == 0x2029 || r.toNat == 0x202f || r.toNat == 0x205f ||
  r.toNat == 0x3000

end unicode

/-! ## Package `strings` -/

namespace strings

/-- The scanning loop of `strings.Split` for a non-empty separator: `skip` counts
the characters of a separator just matched that are still to be passed over, `cur`
holds (reversed) the characters of the piece being read. -/
def splitFrom (sep : List Char) : Nat → List Char → List Char → List (List Char)
  | _, cur, [] => [cur.reverse]
  | skip + 1, cur, _ :: cs => splitFrom sep skip cur cs
  | 0, cur, c :: cs =>
    if sep.isPrefixOf (c :: cs) then cur.reverse :: splitFrom sep (sep.length - 1) [] cs
    else splitFrom sep 0 (c :: cur) cs

/-- The function `strings.Split(s, sep)`: the pieces of `s` between the
non-overlapping occurrences of `sep`, from the left; an empty `sep` splits after
each character. -/
def Split (s sep : String) : List String :=
  if sep.data = [] then s.data.map fun c => String.mk [c]
  else (splitFrom sep.data 0 [] s.data).map String.mk

/-- The function `strings.TrimPrefix(s, pre)`. -/
def TrimPrefix (s pre : String) : String :=
  if pre.data.isPrefixOf s.data then String.mk (s.data.drop pre.data.length) else s

/-- The function `strings.TrimSuffix(s, suf)`. -/
def TrimSuffix (s suf : String) : String :=
  if suf.data.isSuffixOf s.data then String.mk (s.data.take (s.data.length - suf.data.length))
  else s

/-- The function `strings.TrimLeftFunc(s, f)`. -/
def TrimLeftFunc (s : String) (f : Char → Bool) : String :=
  String.mk (s.data.dropWhile f)

/-- The function `strings.TrimRightFunc(s, f)`. -/
def TrimRightFunc (s : String) (f : Char → Bool) : String :=
  String.mk (s.data.reverse.dropWhile f).reverse

/-- The function `strings.TrimFunc(s, f)`. -/
def TrimFunc (s : String) (f : Char → Bool) : String :=
  TrimRightFunc (TrimLeftFunc s f) f

/-- The function `strings.Trim(s, cutset)`: all leading and trailing code points
contained in `cutset` removed. -/
def Trim (s cutset : String) : String :=
  TrimLeftFunc (TrimRightFunc s fun c => cutset.data.elem c) fun c => cutset.data.elem c

/-- The function `strings.TrimSpace(s)`. -/
def TrimSpace (s : String) : String :=
  TrimFunc s unicode.IsSpace

/-- The function `strings.Contains(s, substr)`: `substr` starts at some position of
`s`. -/
def Contains (s substr : String) : Bool :=
  s.data.tails.any fun t => substr.data.isPrefixOf t

/-- The function `strings.Join(elems, sep)`. -/
def Join (elems : List String) (sep : String) : String :=
  match elems with
  | [] => ""
  | e :: rest => rest.foldl (fun b s => b ++ sep ++ s) e

end strings

/-! ## Package `uuid` (external) -/

namespace uuid

deriving instance DecidableEq for Except

/-- The type `uuid.UUID`, an array of 16 bytes. -/
def UUID : Type := { bs : List (Fin 256) // bs.length = 16 }

instance : DecidableEq UUID := inferInstanceAs (DecidableEq { bs : List (Fin 256) // bs.length = 16 })

/-- The sixteen lowercase hexadecimal digits. -/
def hextable : List Char := "0123456789abcdef".data

/-- Two lowercase hexadecimal digits per byte, as `hex.Encode` writes them. -/
def encodeHex : List (Fin 256) → List Char
  | [] => []
  | b :: bs => hextable.getD (b.val / 16) '0' :: hextable.getD (b.val % 16) '0' :: encodeHex bs

/-- Modelled from the spec: `UUID.String` of the external package `uuid`, the
canonical lowercase hyphenated hex form of a 128-bit identifier (8-4-4-4-12 hex
digit groups). -/
def UUID.String (u : UUID) : String :=
  String.mk (encodeHex (u.val.take 4) ++ '-' :: encodeHex ((u.val.drop 4).take 2) ++
    '-' :: encodeHex ((u.val.drop 6).take 2) ++ '-' :: encodeHex ((u.val.drop 8).take 2) ++
    '-' :: encodeHex (u.val.drop 10))

/-- The value of a hexadecimal digit of the canonical form. -/
def unhex (c : Char) : Option Nat :=
  match hextable.indexOf c with
  | 16 => none
  | n => some n

/-- Reads `n` bytes, two digits each, from the front of a character sequence. -/
def decodeHex : Nat → List Char → Option (List (Fin 256) × List Char)
  | 0, cs => some ([], cs)
  | n + 1, c₁ :: c₂ :: cs =>
    match unhex c₁, unhex c₂, decodeHex n cs with
    | some h, some l, some (bs, rest) => some (Fin.ofNat (h * 16 + l) :: bs, rest)
    | _, _, _ => none
  | _ + 1, _ => none

/-- Reads a group of `n` bytes followed by a hyphen. -/
def decodeGroup (n : Nat) (cs : List Char) : Option (List (Fin 256) × List Char) :=
  match decodeHex n cs with
  | some (bs, '-' :: rest) => some (bs, rest)
  | _ => none

/-- Modelled from the spec: the identifier parser (`uuid.Parse` of the external
package `uuid`) as the capability "parse a canonical textual identifier into a
fixed-size binary value, or fail".  This parser accepts the canonical form and
nothing else. -/
def ParseCanonical (s : String) : Except String UUID :=
  if s.data.length ≠ 36 then Except.error "invalid UUID length"
  else
    match decodeGroup 4 s.data with
    | none => Except.error "invalid UUID format"
    | some (g₁, r₁) =>
    match decodeGroup 2 r₁ with
    | none => Except.error "invalid UUID format"
    | some (g₂, r₂) =>
    match decodeGroup 2 r₂ with
    | none => Except.error "invalid UUID format"
    | some (g₃, r₃) =>
    match decodeGroup 2 r₃ with
    | none => Except.error "invalid UUID format"
    | some (g₄, r₄) =>
    match decodeHex 6 r₄ with
    | some (g₅, []) =>
      if h : (g₁ ++ g₂ ++ g₃ ++ g₄ ++ g₅).length = 16 then
        Except.ok ⟨g₁ ++ g₂ ++ g₃ ++ g₄ ++ g₅, h⟩
      else Except.error "invalid UUID format"
    | _ => Except.error "invalid UUID format"

/-- A parser that reads the canonical form and, besides, a text of 38 characters
by dropping its first character and reading the 36 that follow, whatever the two
outer characters are: the treatment that the package `uuid` documents for the
38-byte form of its `Parse`. -/
def ParseWrapped (s : String) : Except String UUID :=
  if s.data.length = 38 then ParseCanonical (String.mk ((s.data.drop 1).take 36))
  else ParseCanonical s

end uuid

/-! ## Package `types` -/

/-- A value of type `interface{}` as `Scan` can receive it: the dynamic types of
`driver.Value`, which is what the data-access layer passes, and `other` for a
value of any further dynamic type, named by `dynType`. -/
inductive Any where
  | nil
  | int64 (n : Int)
  | float64 (bits : Nat)
  | bool (b : Bool)
  | bytes (v : String)
  | string (v : String)
  | time (unixNano : Int)
  | other (dynType : String)
deriving DecidableEq

/-- The declaration `type UUIDArray []uuid.UUID`. -/
abbrev UUIDArray : Type := List uuid.UUID

namespace UUIDArray

/-- The message of the error `Scan` returns in the `default` case of its type
switch. -/
def errUnsupported : String := "failed to parse UUIDArray: unsupported data type"

/-- The message of `fmt.Errorf("invalid UUID in array: %v", err)`. -/
def errInvalid (err : String) : String := "invalid UUID in array: " ++ err

/-- The body of the statement `part = strings.TrimSpace(strings.Trim(part, "\""))`. -/
def trimPart (part : String) : String :=
  strings.TrimSpace (strings.Trim part "\x22")

/-- The loop `for _, part := range parts` of `Scan`, started with the receiver
holding `a`: it returns the receiver's final contents and the error. -/
def scanParts (parse : String → Except String uuid.UUID) :
    UUIDArray → List String → UUIDArray × Option String
  | a, [] => (a, none)
  | a, part :: parts =>
    if trimPart part = "" then scanParts parse a parts
    else
      match parse (trimPart part) with
      | Except.error err => (a, some (errInvalid err))
      | Except.ok u => scanParts parse (a ++ [u]) parts

/-- The value of the variable `parts` of `Scan` when the type switch has set `str`:
one leading and one trailing brace removed, the rest split at the commas. -/
def parts (str : String) : List String :=
  strings.Split (strings.TrimSuffix (strings.TrimPrefix str "\x7b") "\x7d") ","

/-- The method `func (a *UUIDArray) Scan(value interface{}) error`: from the
receiver's contents `a` before the call and the argument, the receiver's contents
after the call and the returned error. -/
def Scan (parse : String → Except String uuid.UUID) (a : UUIDArray) (value : Any) :
    UUIDArray × Option String :=
  match value with
  | Any.bytes v => scanParts parse [] (parts v)
  | Any.string v => scanParts parse [] (parts v)
  | _ => (a, some errUnsupported)

/-- The method `func (a UUIDArray) Value() (driver.Value, error)`. -/
def Value (a : UUIDArray) : Any × Option String :=
  if a.length = 0 then (Any.string "\x7b\x7d", none)
  else
    (Any.string ("\x7b" ++ strings.Join (a.map fun v => "\x22" ++ v.String ++ "\x22") "," ++ "\x7d"),
      none)

/-- The method `func (UUIDArray) GormDataType() string`. -/
def GormDataType (_ : UUIDArray) : String := "uuid[]"

/-! ### Vocabulary of the statements -/

/-- The candidates of `ps` that are non-empty after `trimPart`, trimmed, in order:
the texts that `Scan` hands to the identifier parser. -/
def tokens (ps : List String) : List String :=
  (ps.map trimPart).filter fun t => decide (t ≠ "")

/-- An identifier's canonical form between double quotes. -/
def quoted (u : uuid.UUID) : String := "\x22" ++ u.String ++ "\x22"

/-- The text of the encode format after the first element: for each further
identifier a comma and the quoted canonical form. -/
def renderRest : List uuid.UUID → String
  | [] => ""
  | u :: us => "," ++ quoted u ++ renderRest us

/-- The array literal whose elements are the quoted canonical forms of the
identifiers of `es`, each between the two paddings listed with it. -/
def paddedLiteral (es : List (String × uuid.UUID × String)) : String :=
  "\x7b" ++ strings.Join (es.map fun e => e.1 ++ quoted e.2.1 ++ e.2.2) "," ++ "\x7d"

/-- A non-empty text of white space. -/
def IsPadding (w : String) : Prop :=
  w ≠ "" ∧ ∀ c ∈ w.data, unicode.IsSpace c = true

/-- The identifier `11111111-1111-1111-1111-111111111111`. -/
def id1 : uuid.UUID := ⟨List.replicate 16 0x11, rfl⟩

/-- The identifier `22222222-2222-2222-2222-222222222222`. -/
def id2 : uuid.UUID := ⟨List.replicate 16 0x22, rfl⟩

end UUIDArray

/-! ## Lemmas on the `strings` functions -/

namespace strings

theorem splitFrom_comma_cons (cur : List Char) (c : Char) (cs : List Char) :
    splitFrom [','] 0 cur (c :: cs) =
      if c = ',' then cur.reverse :: splitFrom [','] 0 [] cs
      else splitFrom [','] 0 (c :: cur) cs := by
  by_cases h : c = ','
  · subst h; simp [splitFrom]
  · have h' : ¬ (',' = c) := fun e => h e.symm
    simp [splitFrom, h, h']

theorem splitFrom_piece (p rest : List Char) (hp : ∀ c ∈ p, c ≠ ',') (cur : List Char) :
    splitFrom [','] 0 cur (p ++ ',' :: rest) =
      (cur.reverse ++ p) :: splitFrom [','] 0 [] rest := by
  induction p generalizing cur with
  | nil => simp [splitFrom_comma_cons]
  | cons c p ih =>
    have hc : c ≠ ',' := hp c (List.mem_cons_self _ _)
    have hp' : ∀ d ∈ p, d ≠ ',' := fun d hd => hp d (List.mem_cons_of_mem _ hd)
    simp [splitFrom_comma_cons, hc, ih hp']

theorem splitFrom_last (p : List Char) (hp : ∀ c ∈ p, c ≠ ',') (cur : List Char) :
    splitFrom [','] 0 cur p = [cur.reverse ++ p] := by
  induction p generalizing cur with
  | nil => simp [splitFrom]
  | cons c p ih =>
    have hc : c ≠ ',' := hp c (List.mem_cons_self _ _)
    have hp' : ∀ d ∈ p, d ≠ ',' := fun d hd => hp d (List.mem_cons_of_mem _ hd)
    simp [splitFrom_comma_cons, hc, ih hp']

theorem foldl_join_append (sep x y : String) (rest : List String) :
    rest.foldl (fun b s => b ++ sep ++ s) (x ++ y) =
      x ++ rest.foldl (fun b s => b ++ sep ++ s) y := by
  induction rest generalizing y with
  | nil => rfl
  | cons r rest ih =>
    simp only [List.foldl_cons]
    rw [← ih]
    simp [String.append_assoc]

theorem Join_cons_cons (e e' : String) (rest : List String) (sep : String) :
    Join (e :: e' :: rest) sep = e ++ sep ++ Join (e' :: rest) sep := by
  simp only [Join, List.foldl_cons]
  rw [String.append_assoc, String.append_assoc, foldl_join_append, foldl_join_append]

theorem splitFrom_Join (p : String) (ps : List String)
    (h : ∀ q ∈ p :: ps, ∀ c ∈ q.data, c ≠ ',') :
    splitFrom [','] 0 [] (Join (p :: ps) ",").data = (p :: ps).map String.data := by
  induction ps generalizing p with
  | nil =>
    simpa [Join] using splitFrom_last p.data (h p (List.mem_cons_self _ _)) []
  | cons q ps ih =>
    rw [Join_cons_cons]
    have hq : ∀ r ∈ q :: ps, ∀ c ∈ r.data, c ≠ ',' :=
      fun r hr => h r (List.mem_cons_of_mem _ hr)
    have := splitFrom_piece p.data (Join (q :: ps) ",").data (h p (List.mem_cons_self _ _)) []
    simp only [String.data_append, List.append_assoc]
    simpa [ih q hq] using this

/-- Splitting a comma-joined text whose pieces hold no comma gives the pieces back. -/
theorem Split_Join (ps : List String) (hne : ps ≠ [])
    (h : ∀ q ∈ ps, ∀ c ∈ q.data, c ≠ ',') : Split (Join ps ",") "," = ps := by
  cases ps with
  | nil => exact absurd rfl hne
  | cons p ps =>
    have hs : (",".data = []) = False := by simp
    simp only [Split, hs, if_false, splitFrom_Join p ps h, List.map_map]
    exact (List.map_congr_left (fun s _ => rfl)).trans (List.map_id _)

/-- Removing one leading and one trailing brace from a brace-wrapped text. -/
theorem strip_wrap (body : String) :
    TrimSuffix (TrimPrefix ("\x7b" ++ body ++ "\x7d") "\x7b") "\x7d" = body := by
  have h1 : TrimPrefix ("\x7b" ++ body ++ "\x7d") "\x7b" = body ++ "\x7d" := by
    apply String.ext
    simp [TrimPrefix]
  rw [h1]
  apply String.ext
  simp [TrimSuffix, List.isSuffixOf]

theorem dropWhile_pad (f : Char → Bool) (w m : List Char) (hw : ∀ c ∈ w, f c = true)
    (hm : ∀ c, m.head? = some c → f c = false) : (w ++ m).dropWhile f = m := by
  induction w with
  | nil =>
    cases m with
    | nil => rfl
    | cons c m => simp [List.dropWhile_cons, hm c rfl]
  | cons c w ih =>
    have hc : f c = true := hw c (List.mem_cons_self _ _)
    simp only [List.cons_append, List.dropWhile_cons, hc, if_true]
    exact ih fun d hd => hw d (List.mem_cons_of_mem _ hd)

theorem head?_append_of_ne_nil (m w : List Char) (h : m ≠ []) : (m ++ w).head? = m.head? := by
  cases m with
  | nil => exact absurd rfl h
  | cons c m => rfl

/-- Trimming by `f` from the left removes a padding `w₁` of characters satisfying
`f` in front of a non-empty core `m` whose first character does not satisfy `f`. -/
theorem TrimLeftFunc_pad (f : Char → Bool) (w₁ m w₂ : List Char) (hne : m ≠ [])
    (h₁ : ∀ c ∈ w₁, f c = true) (hh : ∀ c, m.head? = some c → f c = false) :
    TrimLeftFunc (String.mk (w₁ ++ m ++ w₂)) f = String.mk (m ++ w₂) := by
  unfold TrimLeftFunc
  congr 1
  rw [List.append_assoc]
  exact dropWhile_pad f w₁ (m ++ w₂) h₁ (by rw [head?_append_of_ne_nil m w₂ hne]; exact hh)

/-- Trimming by `f` from the right removes a padding `w₂` of characters satisfying
`f` behind a non-empty core `m` whose last character does not satisfy `f`. -/
theorem TrimRightFunc_pad (f : Char → Bool) (w₁ m w₂ : List Char) (hne : m ≠ [])
    (h₂ : ∀ c ∈ w₂, f c = true) (hl : ∀ c, m.getLast? = some c → f c = false) :
    TrimRightFunc (String.mk (w₁ ++ m ++ w₂)) f = String.mk (w₁ ++ m) := by
  unfold TrimRightFunc
  congr 1
  have hrev : (w₁ ++ m ++ w₂).reverse = w₂.reverse ++ (m.reverse ++ w₁.reverse) := by simp
  have hne' : m.reverse ≠ [] := by simpa using hne
  rw [hrev, dropWhile_pad f w₂.reverse (m.reverse ++ w₁.reverse)
    (fun c hc => h₂ c (List.mem_reverse.mp hc))
    (by rw [head?_append_of_ne_nil _ _ hne', List.head?_reverse]; exact hl)]
  simp

theorem TrimFunc_pad (f : Char → Bool) (w₁ m w₂ : List Char) (hne : m ≠ [])
    (h₁ : ∀ c ∈ w₁, f c = true) (h₂ : ∀ c ∈ w₂, f c = true)
    (hh : ∀ c, m.head? = some c → f c = false) (hl : ∀ c, m.getLast? = some c → f c = false) :
    TrimFunc (String.mk (w₁ ++ m ++ w₂)) f = String.mk m := by
  unfold TrimFunc
  rw [TrimLeftFunc_pad f w₁ m w₂ hne h₁ hh]
  simpa using TrimRightFunc_pad f [] m w₂ hne h₂ hl

theorem Trim_pad (cutset : String) (w₁ m w₂ : List Char) (hne : m ≠ [])
    (h₁ : ∀ c ∈ w₁, c ∈ cutset.data) (h₂ : ∀ c ∈ w₂, c ∈ cutset.data)
    (hh : ∀ c, m.head? = some c → c ∉ cutset.data)
    (hl : ∀ c, m.getLast? = some c → c ∉ cutset.data) :
    Trim (String.mk (w₁ ++ m ++ w₂)) cutset = String.mk m := by
  unfold Trim
  rw [TrimRightFunc_pad _ w₁ m w₂ hne (fun c hc => by simpa using h₂ c hc)
    (fun c hc => by simpa using hl c hc)]
  simpa using TrimLeftFunc_pad (fun c => cutset.data.elem c) w₁ m [] hne
    (fun c hc => by simpa using h₁ c hc) (fun c hc => by simpa using hh c hc)

end strings

/-! ## Lemmas on the canonical form -/

namespace uuid

theorem hextable_getD_mem (k : Nat) : hextable.getD k '0' ∈ hextable := by
  by_cases h : k < 16
  · interval_cases k <;> decide
  · have : hextable.length ≤ k := by simpa [hextable] using h
    rw [List.getD_eq_default _ _ this]
    decide

theorem encodeHex_mem (bs : List (Fin 256)) : ∀ c ∈ encodeHex bs, c ∈ hextable := by
  induction bs with
  | nil => simp [encodeHex]
  | cons b bs ih =>
    intro c hc
    simp only [encodeHex, List.mem_cons] at hc
    rcases hc with rfl | rfl | hc
    · exact hextable_getD_mem _
    · exact hextable_getD_mem _
    · exact ih c hc

/-- Every character of a canonical form is a hyphen or a lowercase hex digit. -/
theorem String_mem (u : UUID) : ∀ c ∈ u.String.data, c ∈ '-' :: hextable := by
  intro c hc
  have hc' : c ∈ encodeHex (u.val.take 4) ++ '-' :: encodeHex ((u.val.drop 4).take 2) ++
      '-' :: encodeHex ((u.val.drop 6).take 2) ++ '-' :: encodeHex ((u.val.drop 8).take 2) ++
      '-' :: encodeHex (u.val.drop 10) := hc
  simp only [List.mem_append, List.mem_cons] at hc'
  rcases hc' with (((h | h) | h) | h) | h
  all_goals first
    | exact List.mem_cons_of_mem _ (encodeHex_mem _ c h)
    | (rcases h with rfl | h
       · exact List.mem_cons_self _ _
       · exact List.mem_cons_of_mem _ (encodeHex_mem _ c h))

theorem String_ne_nil (u : UUID) : u.String.data ≠ [] := by
  simp [UUID.String]

theorem canon_not_special : ∀ c ∈ '-' :: hextable,
    c ≠ ',' ∧ c ≠ '\x22' ∧ unicode.IsSpace c = false := by
  decide

theorem String_no_comma (u : UUID) : ∀ c ∈ u.String.data, c ≠ ',' :=
  fun c hc => (canon_not_special c (String_mem u c hc)).1

theorem String_head (u : UUID) (c : Char) (h : u.String.data.head? = some c) :
    c ∈ '-' :: hextable :=
  String_mem u c (List.mem_of_mem_head? h)

theorem String_last (u : UUID) (c : Char) (h : u.String.data.getLast? = some c) :
    c ∈ '-' :: hextable :=
  String_mem u c (List.mem_of_getLast?_eq_some h)

theorem unhex_getD (k : Nat) (h : k < 16) : unhex (hextable.getD k '0') = some k := by
  interval_cases k <;> decide

theorem decodeHex_encodeHex (bs : List (Fin 256)) (rest : List Char) :
    decodeHex bs.length (encodeHex bs ++ rest) = some (bs, rest) := by
  induction bs with
  | nil => rfl
  | cons b bs ih =>
    have h1 : b.val / 16 < 16 := by omega
    have h2 : b.val % 16 < 16 := by omega
    have h3 : (Fin.ofNat (b.val / 16 * 16 + b.val % 16) : Fin 256) = b := by
      apply Fin.ext
      simp only [Fin.ofNat, Nat.div_add_mod']
      exact Nat.mod_eq_of_lt b.isLt
    show decodeHex (bs.length + 1) (hextable.getD (b.val / 16) '0' ::
      hextable.getD (b.val % 16) '0' :: (encodeHex bs ++ rest)) = some (b :: bs, rest)
    simp only [decodeHex, unhex_getD _ h1, unhex_getD _ h2, ih, h3]

theorem decodeGroup_encodeHex (bs : List (Fin 256)) (rest : List Char) :
    decodeGroup bs.length (encodeHex bs ++ '-' :: rest) = some (bs, rest) := by
  simp only [decodeGroup, decodeHex_encodeHex]

theorem encodeHex_length (bs : List (Fin 256)) : (encodeHex bs).length = 2 * bs.length := by
  induction bs with
  | nil => rfl
  | cons b bs ih => simp only [encodeHex, List.length_cons, ih]; omega

/-- The canonical parser inverts the canonical form. -/
theorem ParseCanonical_String (u : UUID) : ParseCanonical u.String = Except.ok u := by
  obtain ⟨bs, hbs⟩ := u
  have e1 : (bs.take 4).length = 4 := by simp [hbs]
  have e2 : ((bs.drop 4).take 2).length = 2 := by simp [hbs]
  have e3 : ((bs.drop 6).take 2).length = 2 := by simp [hbs]
  have e4 : ((bs.drop 8).take 2).length = 2 := by simp [hbs]
  have e5 : (bs.drop 10).length = 6 := by simp [hbs]
  have hlen : (UUID.String ⟨bs, hbs⟩).data.length = 36 := by
    simp only [UUID.String, List.length_append, List.length_cons, encodeHex_length, e1, e2, e3,
      e4, e5]
  have d1 := decodeGroup_encodeHex (bs.take 4)
  have d2 := decodeGroup_encodeHex ((bs.drop 4).take 2)
  have d3 := decodeGroup_encodeHex ((bs.drop 6).take 2)
  have d4 := decodeGroup_encodeHex ((bs.drop 8).take 2)
  have d5 := decodeHex_encodeHex (bs.drop 10) []
  rw [e1] at d1; rw [e2] at d2; rw [e3] at d3; rw [e4] at d4; rw [e5] at d5
  have hcat : bs.take 4 ++ (bs.drop 4).take 2 ++ (bs.drop 6).take 2 ++ (bs.drop 8).take 2 ++
      bs.drop 10 = bs := by
    have a1 : (bs.drop 4).take 2 ++ (bs.drop 6).take 2 ++ (bs.drop 8).take 2 ++ bs.drop 10
        = bs.drop 4 := by
      have b1 : bs.drop 6 = (bs.drop 4).drop 2 := by simp [List.drop_drop]
      have b2 : bs.drop 8 = (bs.drop 6).drop 2 := by simp [List.drop_drop]
      have b3 : bs.drop 10 = (bs.drop 8).drop 2 := by simp [List.drop_drop]
      rw [List.append_assoc, List.append_assoc, b3, List.take_append_drop, b2,
        List.take_append_drop, b1, List.take_append_drop]
    rw [List.append_assoc, List.append_assoc, List.append_assoc, ← List.append_assoc
      ((bs.drop 4).take 2), ← List.append_assoc ((bs.drop 4).take 2 ++ _), a1,
      List.take_append_drop]
  unfold ParseCanonical
  rw [if_neg (by rw [hlen]; decide)]
  simp only [UUID.String, List.append_assoc, List.cons_append, d1, d2, d3, d4]
  rw [List.append_nil] at d5
  simp only [d5]
  have hcat' := hcat
  simp only [List.append_assoc] at hcat'
  rw [dif_pos (by rw [hcat']; exact hbs)]
  congr 1
  exact Subtype.ext hcat'

end uuid

/-! ## Lemmas on `Scan` -/

namespace UUIDArray

open uuid

theorem tokens_nil : tokens [] = [] := rfl

theorem tokens_cons_empty (p : String) (ps : List String) (h : trimPart p = "") :
    tokens (p :: ps) = tokens ps := by
  simp [tokens, h]

theorem tokens_cons_token (p : String) (ps : List String) (h : trimPart p ≠ "") :
    tokens (p :: ps) = trimPart p :: tokens ps := by
  simp [tokens, h]

theorem tokens_append (ps qs : List String) : tokens (ps ++ qs) = tokens ps ++ tokens qs := by
  simp [tokens]

/-- When every token parses, the loop appends the parsed identifiers in order. -/
theorem scanParts_of_tokens (parse : String → Except String UUID) (ps : List String) :
    ∀ (us a : UUIDArray), (tokens ps).map parse = us.map Except.ok →
      scanParts parse a ps = (a ++ us, none) := by
  induction ps with
  | nil =>
    intro us a h
    cases us with
    | nil => simp [scanParts]
    | cons u us => simp [tokens] at h
  | cons p ps ih =>
    intro us a h
    by_cases hp : trimPart p = ""
    · rw [tokens_cons_empty p ps hp] at h
      simp only [scanParts, hp, if_true]
      exact ih us a h
    · rw [tokens_cons_token p ps hp] at h
      cases us with
      | nil => simp at h
      | cons u us =>
        simp only [List.map_cons, List.cons.injEq] at h
        simp only [scanParts, hp, if_false, h.1]
        rw [ih us (a ++ [u]) h.2]
        simp

/-- What the loop has done when it ends without an error. -/
theorem scanParts_none (parse : String → Except String UUID) (ps : List String) :
    ∀ (a a' : UUIDArray), scanParts parse a ps = (a', none) →
      ∃ us, a' = a ++ us ∧ (tokens ps).map parse = us.map Except.ok := by
  induction ps with
  | nil =>
    intro a a' h
    simp only [scanParts, Prod.mk.injEq, and_true] at h
    exact ⟨[], by simp [h], rfl⟩
  | cons p ps ih =>
    intro a a' h
    by_cases hp : trimPart p = ""
    · simp only [scanParts, hp, if_true] at h
      rw [tokens_cons_empty p ps hp]
      exact ih a a' h
    · simp only [scanParts, hp, if_false] at h
      rw [tokens_cons_token p ps hp]
      cases hparse : parse (trimPart p) with
      | error err => simp [hparse] at h
      | ok u =>
        simp only [hparse] at h
        obtain ⟨us, h1, h2⟩ := ih (a ++ [u]) a' h
        exact ⟨u :: us, by simp [h1], by simp [hparse, h2]⟩

/-- What the loop has done when it ends with an error. -/
theorem scanParts_some (parse : String → Except String UUID) (ps : List String) :
    ∀ (a a' : UUIDArray) (e : String), scanParts parse a ps = (a', some e) →
      ∃ pre c post err us, ps = pre ++ c :: post ∧ trimPart c ≠ "" ∧
        parse (trimPart c) = Except.error err ∧ e = errInvalid err ∧
        a' = a ++ us ∧ (tokens pre).map parse = us.map Except.ok := by
  induction ps with
  | nil =>
    intro a a' e h
    simp [scanParts] at h
  | cons p ps ih =>
    intro a a' e h
    by_cases hp : trimPart p = ""
    · simp only [scanParts, hp, if_true] at h
      obtain ⟨pre, c, post, err, us, h1, h2, h3, h4, h5, h6⟩ := ih a a' e h
      refine ⟨p :: pre, c, post, err, us, by simp [h1], h2, h3, h4, h5, ?_⟩
      rw [tokens_cons_empty p pre hp]
      exact h6
    · simp only [scanParts, hp, if_false] at h
      cases hparse : parse (trimPart p) with
      | error err =>
        simp only [hparse, Prod.mk.injEq, Option.some.injEq] at h
        exact ⟨[], p, ps, err, [], rfl, hp, hparse, h.2.symm, by simp [h.1], rfl⟩
      | ok u =>
        simp only [hparse] at h
        obtain ⟨pre, c, post, err, us, h1, h2, h3, h4, h5, h6⟩ := ih (a ++ [u]) a' e h
        refine ⟨p :: pre, c, post, err, u :: us, by simp [h1], h2, h3, h4, by simp [h5], ?_⟩
        rw [tokens_cons_token p pre hp]
        simp [hparse, h6]

theorem quoted_data (u : UUID) : (quoted u).data = '\x22' :: (u.String.data ++ ['\x22']) := by
  simp [quoted]

theorem quoted_no_comma (u : UUID) : ∀ c ∈ (quoted u).data, c ≠ ',' := by
  intro c hc
  rw [quoted_data] at hc
  simp only [List.mem_cons, List.mem_append, List.mem_singleton, List.not_mem_nil,
    or_false] at hc
  rcases hc with rfl | hc | rfl
  · decide
  · exact String_no_comma u c hc
  · decide

theorem Trim_quote_String (u : UUID) : strings.Trim u.String "\x22" = u.String := by
  have := strings.Trim_pad "\x22" [] u.String.data [] (String_ne_nil u) (by simp) (by simp)
    (fun c hc => by simpa using (canon_not_special c (String_head u c hc)).2.1)
    (fun c hc => by simpa using (canon_not_special c (String_last u c hc)).2.1)
  simpa using this

theorem TrimSpace_String (u : UUID) : strings.TrimSpace u.String = u.String := by
  have := strings.TrimFunc_pad unicode.IsSpace [] u.String.data [] (String_ne_nil u) (by simp)
    (by simp) (fun c hc => (canon_not_special c (String_head u c hc)).2.2)
    (fun c hc => (canon_not_special c (String_last u c hc)).2.2)
  simpa [strings.TrimSpace] using this

/-- The loop's normalisation takes a canonical form to itself. -/
theorem trimPart_String (u : UUID) : trimPart u.String = u.String := by
  unfold trimPart
  rw [Trim_quote_String, TrimSpace_String]

/-- The loop's normalisation takes a quoted canonical form to the canonical form. -/
theorem trimPart_quoted (u : UUID) : trimPart (quoted u) = u.String := by
  have h1 : strings.Trim (quoted u) "\x22" = u.String := by
    have := strings.Trim_pad "\x22" ['\x22'] u.String.data ['\x22'] (String_ne_nil u) (by simp)
      (by simp)
      (fun c hc => by simpa using (canon_not_special c (String_head u c hc)).2.1)
      (fun c hc => by simpa using (canon_not_special c (String_last u c hc)).2.1)
    have e : quoted u = String.mk (['\x22'] ++ u.String.data ++ ['\x22']) :=
      String.ext (by simp [quoted_data])
    rw [e]
    exact this
  unfold trimPart
  rw [h1, TrimSpace_String]

theorem String_ne_empty (u : UUID) : u.String ≠ "" := by
  intro h
  exact String_ne_nil u (by rw [h])

end UUIDArray

/-! ## The claims -/

namespace UUIDArray

open uuid

theorem mem_tokens (ps : List String) (t : String) :
    t ∈ tokens ps ↔ t ≠ "" ∧ ∃ c ∈ ps, trimPart c = t := by
  simp only [tokens, List.mem_filter, List.mem_map, decide_eq_true_eq]
  exact ⟨fun h => ⟨h.2, h.1⟩, fun h => ⟨h.2, h.1⟩⟩

theorem tokens_map_quoted (l : UUIDArray) : tokens (l.map quoted) = l.map UUID.String := by
  induction l with
  | nil => rfl
  | cons u us ih =>
    have h : trimPart (quoted u) ≠ "" := by rw [trimPart_quoted]; exact String_ne_empty u
    rw [List.map_cons, tokens_cons_token _ _ h, ih, trimPart_quoted, List.map_cons]

theorem parts_wrap_Join (ps : List String) (hne : ps ≠ [])
    (h : ∀ q ∈ ps, ∀ c ∈ q.data, c ≠ ',') :
    parts ("\x7b" ++ strings.Join ps "," ++ "\x7d") = ps := by
  unfold parts
  rw [strings.strip_wrap, strings.Split_Join ps hne h]

/-- The loop ends with an error exactly when some candidate that is non-empty after
trimming fails to parse. -/
theorem scanParts_error_iff (parse : String → Except String UUID) (a : UUIDArray)
    (ps : List String) :
    (scanParts parse a ps).2 ≠ none ↔
      ∃ c ∈ ps, trimPart c ≠ "" ∧ ∃ err, parse (trimPart c) = Except.error err := by
  constructor
  · intro h
    cases hr : scanParts parse a ps with
    | mk a' r =>
      cases r with
      | none => rw [hr] at h; exact absurd rfl h
      | some e =>
        obtain ⟨pre, c, post, err, us, h1, h2, h3, _, _, _⟩ := scanParts_some parse ps a a' e hr
        exact ⟨c, by simp [h1], h2, err, h3⟩
  · rintro ⟨c, hc, hne, err, herr⟩ h
    cases hr : scanParts parse a ps with
    | mk a' r =>
      rw [hr] at h
      simp only at h
      subst h
      obtain ⟨us, _, h2⟩ := scanParts_none parse ps a a' hr
      have hmem : parse (trimPart c) ∈ (tokens ps).map parse :=
        List.mem_map_of_mem parse ((mem_tokens ps _).mpr ⟨hne, c, hc, rfl⟩)
      rw [h2, herr] at hmem
      simp at hmem

/-- C1 (round trip). For every list `l` of identifiers, the empty list and lists
with duplicates included, and every receiver content `a`: if the identifier parser
returns each identifier of `l` on its canonical `String` form, then `Scan` on the
text returned by `Value l` returns no error and leaves the receiver equal to `l`. -/
theorem Scan_Value_round_trip (parse : String → Except String UUID) (l a : UUIDArray)
    (h : ∀ u ∈ l, parse u.String = Except.ok u) :
    Scan parse a (Value l).1 = (l, none) := by
  cases l with
  | nil =>
    have hp : parts "\x7b\x7d" = [""] := by decide
    have ht : tokens [""] = [] := by decide
    show scanParts parse [] (parts "\x7b\x7d") = ([], none)
    rw [hp]
    exact scanParts_of_tokens parse [""] [] [] (by rw [ht]; rfl)
  | cons u us =>
    have hv : (Value (u :: us)).1 =
        Any.string ("\x7b" ++ strings.Join ((u :: us).map quoted) "," ++ "\x7d") := by
      rw [Value, if_neg (by simp)]
      rfl
    rw [hv]
    show scanParts parse [] (parts _) = (u :: us, none)
    rw [parts_wrap_Join _ (by simp) (by
      intro q hq
      obtain ⟨v, _, rfl⟩ := List.mem_map.mp hq
      exact quoted_no_comma v)]
    have := scanParts_of_tokens parse ((u :: us).map quoted) (u :: us) [] (by
      rw [tokens_map_quoted, List.map_map]
      exact List.map_congr_left fun v hv => h v hv)
    simpa using this

/-- Witness of C1 with the canonical parser and a list with a duplicate. -/
theorem Scan_Value_round_trip_witness :
    (∀ u ∈ [id1, id2, id1], ParseCanonical u.String = Except.ok u) ∧
      Scan ParseCanonical [id2] (Value [id1, id2, id1]).1 = ([id1, id2, id1], none) :=
  ⟨fun u _ => ParseCanonical_String u,
    Scan_Value_round_trip ParseCanonical [id1, id2, id1] [id2]
      (fun u _ => ParseCanonical_String u)⟩

/-- C2 (fail-fast decode). For a string input and for a byte input alike, `Scan`
returns an error if and only if some comma-separated candidate that is non-empty
after trimming fails to parse as an identifier; every error returned for such an
input is an invalid-element error; and when the parser rejects `not-a-uuid`, `Scan`
of `{"not-a-uuid"}` returns the invalid-element error with the parser's reason. -/
theorem Scan_error_iff (parse : String → Except String UUID) (a : UUIDArray) (s : String) :
    ((Scan parse a (Any.string s)).2 ≠ none ↔
      ∃ c ∈ parts s, trimPart c ≠ "" ∧ ∃ err, parse (trimPart c) = Except.error err) ∧
    ((Scan parse a (Any.bytes s)).2 ≠ none ↔
      ∃ c ∈ parts s, trimPart c ≠ "" ∧ ∃ err, parse (trimPart c) = Except.error err) ∧
    (∀ e, (Scan parse a (Any.string s)).2 = some e ∨ (Scan parse a (Any.bytes s)).2 = some e →
      ∃ err, e = errInvalid err) ∧
    (∀ err, parse "not-a-uuid" = Except.error err →
      Scan parse a (Any.string "\x7b\x22not-a-uuid\x22\x7d") = ([], some (errInvalid err))) := by
  refine ⟨scanParts_error_iff parse [] (parts s), scanParts_error_iff parse [] (parts s), ?_, ?_⟩
  · intro e he
    have he' : (scanParts parse [] (parts s)).2 = some e := by
      rcases he with he | he <;> exact he
    obtain ⟨_, _, _, err, _, _, _, _, h4, _, _⟩ :=
      scanParts_some parse (parts s) [] (scanParts parse [] (parts s)).1 e
        (Prod.ext rfl he')
    exact ⟨err, h4⟩
  · intro err herr
    have hp : parts "\x7b\x22not-a-uuid\x22\x7d" = ["\x22not-a-uuid\x22"] := by decide
    have ht : trimPart "\x22not-a-uuid\x22" = "not-a-uuid" := by decide
    have hne : ("not-a-uuid" = "") = False := by simp
    show scanParts parse [] (parts _) = _
    rw [hp]
    simp only [scanParts, ht, hne, if_false, herr]

/-- Witness of C2: the canonical parser rejects `not-a-uuid`. -/
theorem Scan_error_iff_witness :
    ParseCanonical "not-a-uuid" = Except.error "invalid UUID length" ∧
      Scan ParseCanonical [id1] (Any.string "\x7b\x22not-a-uuid\x22\x7d") =
        ([], some (errInvalid "invalid UUID length")) :=
  ⟨by decide,
    (Scan_error_iff ParseCanonical [id1] "").2.2.2 "invalid UUID length" (by decide)⟩

/-- Counterexample to C3: after the failed call on
`{"11111111-1111-1111-1111-111111111111","not-a-uuid"}` the receiver holds the
identifier parsed before the offending element. -/
theorem receiver_keeps_parsed_before_failure :
    Scan ParseCanonical []
        (Any.string "\x7b\x2211111111-1111-1111-1111-111111111111\x22,\x22not-a-uuid\x22\x7d") =
      ([id1], some (errInvalid "invalid UUID length")) := by
  decide

/-- C3, amended. Whenever `Scan` on a string or byte input returns an error, the
error is the invalid-element error of a candidate `c` that is non-empty after
trimming and fails to parse, and the receiver holds exactly the identifiers parsed
from the non-empty candidates in front of `c`, in their order. -/
theorem Scan_error_receiver (parse : String → Except String UUID) (a a' : UUIDArray)
    (s e : String) (v : Any) (hv : v = Any.string s ∨ v = Any.bytes s)
    (h : Scan parse a v = (a', some e)) :
    ∃ pre c post err, parts s = pre ++ c :: post ∧ trimPart c ≠ "" ∧
      parse (trimPart c) = Except.error err ∧ e = errInvalid err ∧
      (tokens pre).map parse = a'.map Except.ok := by
  have h' : scanParts parse [] (parts s) = (a', some e) := by
    rcases hv with rfl | rfl <;> exact h
  obtain ⟨pre, c, post, err, us, h1, h2, h3, h4, h5, h6⟩ :=
    scanParts_some parse (parts s) [] a' e h'
  refine ⟨pre, c, post, err, h1, h2, h3, h4, ?_⟩
  rw [h6, h5, List.nil_append]

/-- Witness of C3, amended, at the input of the counterexample. -/
theorem Scan_error_receiver_witness :
    ∃ pre c post err,
      parts "\x7b\x2211111111-1111-1111-1111-111111111111\x22,\x22not-a-uuid\x22\x7d" =
        pre ++ c :: post ∧ trimPart c ≠ "" ∧
      ParseCanonical (trimPart c) = Except.error err ∧ "invalid UUID in array: invalid UUID length" = errInvalid err ∧
      (tokens pre).map ParseCanonical = [id1].map Except.ok :=
  Scan_error_receiver ParseCanonical [] [id1]
    "\x7b\x2211111111-1111-1111-1111-111111111111\x22,\x22not-a-uuid\x22\x7d"
    "invalid UUID in array: invalid UUID length" _ (Or.inl rfl) (by decide)

theorem Join_quoted (u : UUID) (us : UUIDArray) :
    strings.Join ((u :: us).map quoted) "," = quoted u ++ renderRest us := by
  induction us generalizing u with
  | nil => simp [strings.Join, renderRest]
  | cons v vs ih =>
    rw [List.map_cons, List.map_cons, strings.Join_cons_cons, ← List.map_cons, ih v,
      renderRest, String.append_assoc, String.append_assoc]

/-- C4 (encode format). For every non-empty list `u :: us`, `Value` returns exactly
the text made of an opening brace, the quoted canonical form of `u`, then for each
further identifier in list order a single comma and its quoted canonical form, and
a closing brace, with no error; for two identifiers this is
`{"` ++ String(u) ++ `","` ++ String(v) ++ `"}`. -/
theorem Value_format (u : UUID) (us : UUIDArray) :
    Value (u :: us) = (Any.string ("\x7b" ++ quoted u ++ renderRest us ++ "\x7d"), none) ∧
    ∀ v : UUID, Value [u, v] =
      (Any.string ("\x7b\x22" ++ u.String ++ "\x22,\x22" ++ v.String ++ "\x22\x7d"), none) := by
  have hgen : ∀ (w : UUID) (ws : UUIDArray), Value (w :: ws) =
      (Any.string ("\x7b" ++ quoted w ++ renderRest ws ++ "\x7d"), none) := by
    intro w ws
    have hv : Value (w :: ws) =
        (Any.string ("\x7b" ++ strings.Join ((w :: ws).map quoted) "," ++ "\x7d"), none) := by
      rw [Value, if_neg (by simp)]
      rfl
    rw [hv, Join_quoted]
    simp only [String.append_assoc]
  refine ⟨hgen u us, fun v => ?_⟩
  rw [hgen u [v]]
  congr 2
  apply String.ext
  simp [renderRest, quoted]

theorem IsSpace_not_special (c : Char) (h : unicode.IsSpace c = true) :
    c ≠ ',' ∧ c ≠ '\x22' := by
  constructor
  · rintro rfl
    exact absurd h (by decide)
  · rintro rfl
    exact absurd h (by decide)

theorem quoted_ne_nil (u : UUID) : (quoted u).data ≠ [] := by
  simp [quoted_data]

theorem quoted_head (u : UUID) (c : Char) (h : (quoted u).data.head? = some c) :
    c = '\x22' := by
  rw [quoted_data] at h
  simpa using h.symm

theorem quoted_last (u : UUID) (c : Char) (h : (quoted u).data.getLast? = some c) :
    c = '\x22' := by
  have e : (quoted u).data = ('\x22' :: u.String.data) ++ ['\x22'] := by simp [quoted_data]
  rw [e, List.getLast?_append_of_ne_nil _ (by simp)] at h
  simpa using h.symm

/-- The loop's normalisation leaves the double quotes on a quoted canonical form
that has white space on both sides. -/
theorem trimPart_padded (w₁ w₂ : String) (u : UUID) (h₁ : IsPadding w₁) (h₂ : IsPadding w₂) :
    trimPart (w₁ ++ quoted u ++ w₂) = quoted u := by
  have n₁ : w₁.data ≠ [] := fun h => h₁.1 (String.ext h)
  have n₂ : w₂.data ≠ [] := fun h => h₂.1 (String.ext h)
  have hne : (w₁ ++ quoted u ++ w₂).data ≠ [] := by simp [n₁]
  have hhead : ∀ c, (w₁ ++ quoted u ++ w₂).data.head? = some c → c ∉ "\x22".data := by
    intro c hc
    have : (w₁ ++ quoted u ++ w₂).data.head? = w₁.data.head? := by
      simp only [String.data_append, List.append_assoc]
      exact strings.head?_append_of_ne_nil _ _ n₁
    rw [this] at hc
    simpa using (IsSpace_not_special c (h₁.2 c (List.mem_of_mem_head? hc))).2
  have hlast : ∀ c, (w₁ ++ quoted u ++ w₂).data.getLast? = some c → c ∉ "\x22".data := by
    intro c hc
    have : (w₁ ++ quoted u ++ w₂).data.getLast? = w₂.data.getLast? := by
      simp only [String.data_append]
      exact List.getLast?_append_of_ne_nil _ n₂
    rw [this] at hc
    simpa using (IsSpace_not_special c (h₂.2 c (List.mem_of_getLast?_eq_some hc))).2
  have ht : strings.Trim (w₁ ++ quoted u ++ w₂) "\x22" = w₁ ++ quoted u ++ w₂ := by
    have := strings.Trim_pad "\x22" [] (w₁ ++ quoted u ++ w₂).data [] hne (by simp) (by simp)
      hhead hlast
    have e : String.mk ([] ++ (w₁ ++ quoted u ++ w₂).data ++ []) = w₁ ++ quoted u ++ w₂ :=
      String.ext (by simp)
    rw [e] at this
    exact this
  have hs := strings.TrimFunc_pad unicode.IsSpace w₁.data (quoted u).data w₂.data
    (quoted_ne_nil u) h₁.2 h₂.2
    (fun c hc => by rw [quoted_head u c hc]; decide)
    (fun c hc => by rw [quoted_last u c hc]; decide)
  unfold trimPart
  rw [ht]
  have e : w₁ ++ quoted u ++ w₂ = String.mk (w₁.data ++ (quoted u).data ++ w₂.data) :=
    String.ext (by simp)
  rw [strings.TrimSpace, e, hs]

theorem quoted_ne_empty (u : UUID) : quoted u ≠ "" := by
  intro h
  exact quoted_ne_nil u (by rw [h])

theorem tokens_padded (es : List (String × UUID × String))
    (hpad : ∀ e ∈ es, IsPadding e.1 ∧ IsPadding e.2.2) :
    tokens (es.map fun e => e.1 ++ quoted e.2.1 ++ e.2.2) = es.map fun e => quoted e.2.1 := by
  induction es with
  | nil => rfl
  | cons e es ih =>
    have he := hpad e (List.mem_cons_self _ _)
    have ht := trimPart_padded e.1 e.2.2 e.2.1 he.1 he.2
    rw [List.map_cons, tokens_cons_token _ _ (by rw [ht]; exact quoted_ne_empty _), ht,
      ih fun x hx => hpad x (List.mem_cons_of_mem _ hx), List.map_cons]

theorem tokens_parts_paddedLiteral (es : List (String × UUID × String))
    (hpad : ∀ e ∈ es, IsPadding e.1 ∧ IsPadding e.2.2) :
    tokens (parts (paddedLiteral es)) = es.map fun e => quoted e.2.1 := by
  cases es with
  | nil => decide
  | cons e es =>
    unfold paddedLiteral
    rw [parts_wrap_Join _ (by simp) (by
      intro q hq c hc
      obtain ⟨x, hx, rfl⟩ := List.mem_map.mp hq
      have hp := hpad x hx
      simp only [String.data_append, List.mem_append] at hc
      rcases hc with (hc | hc) | hc
      · exact (IsSpace_not_special c (hp.1.2 c hc)).1
      · exact quoted_no_comma _ c hc
      · exact (IsSpace_not_special c (hp.2.2 c hc)).1)]
    exact tokens_padded _ hpad

/-- C6 (order preservation). Whenever `Scan` on a string or byte input returns no
error, parsing the candidates that are non-empty after trimming, in the order in
which they stand in the input, gives exactly the list left in the receiver; and
when the parser accepts the two canonical forms, decoding
`{"11111111-1111-1111-1111-111111111111","22222222-2222-2222-2222-222222222222"}`
leaves the two identifiers in that order. -/
theorem Scan_order (parse : String → Except String UUID) (a : UUIDArray) :
    (∀ (s : String) (v : Any) (a' : UUIDArray), v = Any.string s ∨ v = Any.bytes s →
      Scan parse a v = (a', none) → (tokens (parts s)).map parse = a'.map Except.ok) ∧
    (∀ x y : UUID, parse "11111111-1111-1111-1111-111111111111" = Except.ok x →
      parse "22222222-2222-2222-2222-222222222222" = Except.ok y →
      Scan parse a (Any.string
        "\x7b\x2211111111-1111-1111-1111-111111111111\x22,\x2222222222-2222-2222-2222-222222222222\x22\x7d")
        = ([x, y], none)) := by
  constructor
  · intro s v a' hv h
    have h' : scanParts parse [] (parts s) = (a', none) := by
      rcases hv with rfl | rfl <;> exact h
    obtain ⟨us, h1, h2⟩ := scanParts_none parse (parts s) [] a' h'
    rw [h2, h1, List.nil_append]
  · intro x y hx hy
    have ht : tokens (parts
        "\x7b\x2211111111-1111-1111-1111-111111111111\x22,\x2222222222-2222-2222-2222-222222222222\x22\x7d")
        = ["11111111-1111-1111-1111-111111111111", "22222222-2222-2222-2222-222222222222"] := by
      decide
    exact scanParts_of_tokens parse _ [x, y] [] (by rw [ht]; simp [hx, hy])

/-- Witness of C6 with the canonical parser. -/
theorem Scan_order_witness :
    Scan ParseCanonical [] (Any.string
        "\x7b22222222-2222-2222-2222-222222222222, ,11111111-1111-1111-1111-111111111111\x7d")
        = ([id2, id1], none) ∧
      (tokens (parts
        "\x7b22222222-2222-2222-2222-222222222222, ,11111111-1111-1111-1111-111111111111\x7d")).map
          ParseCanonical = [id2, id1].map Except.ok :=
  ⟨by decide, (Scan_order ParseCanonical []).1 _ _ [id2, id1] (Or.inl rfl) (by decide)⟩

/-- The padded literal decodes to its identifiers exactly when the parser returns
each identifier on its double-quoted canonical form: white space on both sides
keeps the quotes on the token. -/
theorem padded_quoted_decodes_iff (parse : String → Except String UUID) (a : UUIDArray)
    (es : List (String × UUID × String))
    (hpad : ∀ e ∈ es, IsPadding e.1 ∧ IsPadding e.2.2) :
    tokens (parts (paddedLiteral es)) = es.map (fun e => quoted e.2.1) ∧
    (Scan parse a (Any.string (paddedLiteral es)) = (es.map (fun e => e.2.1), none) ↔
      ∀ e ∈ es, parse (quoted e.2.1) = Except.ok e.2.1) := by
  have ht := tokens_parts_paddedLiteral es hpad
  refine ⟨ht, ?_, ?_⟩
  · intro h
    obtain ⟨us, h1, h2⟩ := scanParts_none parse (parts (paddedLiteral es)) [] _ h
    rw [List.nil_append] at h1
    rw [ht, ← h1, List.map_map, List.map_map] at h2
    exact List.map_inj_left.mp h2
  · intro h
    exact scanParts_of_tokens parse (parts (paddedLiteral es)) (es.map fun e => e.2.1) [] (by
      rw [ht, List.map_map, List.map_map]
      exact List.map_inj_left.mpr h)

theorem String_length (u : UUID) : u.String.data.length = 36 := by
  obtain ⟨bs, hbs⟩ := u
  have e1 : (bs.take 4).length = 4 := by simp [hbs]
  have e2 : ((bs.drop 4).take 2).length = 2 := by simp [hbs]
  have e3 : ((bs.drop 6).take 2).length = 2 := by simp [hbs]
  have e4 : ((bs.drop 8).take 2).length = 2 := by simp [hbs]
  have e5 : (bs.drop 10).length = 6 := by simp [hbs]
  simp only [UUID.String, List.length_append, List.length_cons, encodeHex_length, e1, e2, e3,
    e4, e5]

/-- The parser `ParseWrapped` inverts the canonical form. -/
theorem ParseWrapped_String (u : UUID) : ParseWrapped u.String = Except.ok u := by
  unfold ParseWrapped
  rw [if_neg (by rw [String_length]; decide)]
  exact ParseCanonical_String u

/-- The parser `ParseWrapped` returns an identifier on its double-quoted canonical
form. -/
theorem ParseWrapped_quoted (u : UUID) : ParseWrapped (quoted u) = Except.ok u := by
  unfold ParseWrapped
  have hl : (quoted u).data.length = 38 := by
    rw [quoted_data, List.length_cons, List.length_append, String_length]
    rfl
  rw [if_pos hl]
  have hd : ((quoted u).data.drop 1).take 36 = u.String.data := by
    rw [quoted_data]
    show (u.String.data ++ ['\x22']).take 36 = u.String.data
    exact List.take_left' (String_length u)
  rw [hd]
  exact ParseCanonical_String u

/-- C7 (whitespace tolerance). For a parser that returns each identifier on its
double-quoted canonical form, which is the token `Scan` hands over for an element
with white space on both sides: for every list of identifiers, each listed with a
non-empty white space padding for its left and for its right side, `Scan` of the
text formed by double-quoting each canonical form, padding it, joining with commas
and wrapping in braces returns no error and leaves the receiver equal to that
list; and `Scan` of
`{ "11111111-1111-1111-1111-111111111111" , "22222222-2222-2222-2222-222222222222" }`
returns no error and leaves both identifiers in order. -/
theorem Scan_padded_quoted (parse : String → Except String UUID) (a : UUIDArray) :
    (∀ es : List (String × UUID × String),
      (∀ e ∈ es, IsPadding e.1 ∧ IsPadding e.2.2) →
      (∀ e ∈ es, parse (quoted e.2.1) = Except.ok e.2.1) →
      Scan parse a (Any.string (paddedLiteral es)) = (es.map (fun e => e.2.1), none)) ∧
    (parse "\x2211111111-1111-1111-1111-111111111111\x22" = Except.ok id1 →
      parse "\x2222222222-2222-2222-2222-222222222222\x22" = Except.ok id2 →
      Scan parse a (Any.string
        "\x7b \x2211111111-1111-1111-1111-111111111111\x22 , \x2222222222-2222-2222-2222-222222222222\x22 \x7d")
        = ([id1, id2], none)) := by
  constructor
  · intro es hpad hparse
    exact scanParts_of_tokens parse (parts (paddedLiteral es)) (es.map fun e => e.2.1) [] (by
      rw [tokens_parts_paddedLiteral es hpad, List.map_map, List.map_map]
      exact List.map_inj_left.mpr hparse)
  · intro h1 h2
    have ht : tokens (parts
        "\x7b \x2211111111-1111-1111-1111-111111111111\x22 , \x2222222222-2222-2222-2222-222222222222\x22 \x7d")
        = ["\x2211111111-1111-1111-1111-111111111111\x22",
            "\x2222222222-2222-2222-2222-222222222222\x22"] := by
      decide
    exact scanParts_of_tokens parse _ [id1, id2] [] (by rw [ht]; simp [h1, h2])

/-- Witness of C7 with the parser `ParseWrapped`: the literal of the example decodes
to both identifiers in order, and so does a literal with other paddings. -/
theorem Scan_padded_quoted_witness :
    (ParseWrapped "\x2211111111-1111-1111-1111-111111111111\x22" = Except.ok id1 ∧
      ParseWrapped "\x2222222222-2222-2222-2222-222222222222\x22" = Except.ok id2) ∧
    Scan ParseWrapped [id2] (Any.string
      "\x7b \x2211111111-1111-1111-1111-111111111111\x22 , \x2222222222-2222-2222-2222-222222222222\x22 \x7d")
      = ([id1, id2], none) ∧
    (∀ e ∈ [("\t ", id2, " "), (" ", id1, "\n")], IsPadding e.1 ∧ IsPadding e.2.2) ∧
    Scan ParseWrapped [id2] (Any.string (paddedLiteral [("\t ", id2, " "), (" ", id1, "\n")]))
      = ([id2, id1], none) :=
  have hp : ∀ e ∈ [("\t ", id2, " "), (" ", id1, "\n")], IsPadding e.1 ∧ IsPadding e.2.2 := by
    intro e he
    simp only [List.mem_cons, List.mem_singleton, List.not_mem_nil, or_false] at he
    rcases he with rfl | rfl <;> exact ⟨⟨by decide, by decide⟩, ⟨by decide, by decide⟩⟩
  ⟨⟨by decide, by decide⟩,
    (Scan_padded_quoted ParseWrapped [id2]).2 (by decide) (by decide),
    hp,
    (Scan_padded_quoted ParseWrapped [id2]).1 _ hp (fun e _ => ParseWrapped_quoted e.2.1)⟩

/-- C8 (quote tolerance). For every identifier `u` that the parser returns on its
canonical text `s`, `Scan` of `{` ++ s ++ `}` and `Scan` of `{"` ++ s ++ `"}` both
return no error and leave the same one-element list `[u]`. -/
theorem Scan_quote_tolerance (parse : String → Except String UUID) (a : UUIDArray) (u : UUID)
    (h : parse u.String = Except.ok u) :
    Scan parse a (Any.string ("\x7b" ++ u.String ++ "\x7d")) = ([u], none) ∧
    Scan parse a (Any.string ("\x7b\x22" ++ u.String ++ "\x22\x7d")) = ([u], none) := by
  constructor
  · have hp : parts ("\x7b" ++ u.String ++ "\x7d") = [u.String] :=
      parts_wrap_Join [u.String] (by simp) (by
        intro q hq
        rw [List.mem_singleton.mp hq]
        exact String_no_comma u)
    show scanParts parse [] (parts _) = _
    rw [hp]
    exact scanParts_of_tokens parse [u.String] [u] [] (by
      rw [tokens_cons_token _ _ (by rw [trimPart_String]; exact String_ne_empty u),
        trimPart_String]
      simp [tokens_nil, h])
  · have he : "\x7b\x22" ++ u.String ++ "\x22\x7d" = "\x7b" ++ quoted u ++ "\x7d" :=
      String.ext (by simp [quoted])
    have hp : parts ("\x7b" ++ quoted u ++ "\x7d") = [quoted u] :=
      parts_wrap_Join [quoted u] (by simp) (by
        intro q hq
        rw [List.mem_singleton.mp hq]
        exact quoted_no_comma u)
    rw [he]
    show scanParts parse [] (parts _) = _
    rw [hp]
    exact scanParts_of_tokens parse [quoted u] [u] [] (by
      rw [show [quoted u] = [u].map quoted from rfl, tokens_map_quoted]
      simp [h])

/-- Witness of C8 with the canonical parser. -/
theorem Scan_quote_tolerance_witness :
    ParseCanonical id1.String = Except.ok id1 ∧
      Scan ParseCanonical [id2] (Any.string ("\x7b" ++ id1.String ++ "\x7d")) = ([id1], none) ∧
      Scan ParseCanonical [id2] (Any.string ("\x7b\x22" ++ id1.String ++ "\x22\x7d")) =
        ([id1], none) :=
  ⟨ParseCanonical_String id1,
    Scan_quote_tolerance ParseCanonical [id2] id1 (ParseCanonical_String id1)⟩

theorem errInvalid_ne_errUnsupported (err : String) : errInvalid err ≠ errUnsupported := by
  intro h
  have hd := congrArg String.data h
  simp [errInvalid, errUnsupported] at hd

/-- C9 (unsupported input type). For every input value that is neither a byte
sequence nor a string, a number and nil included, `Scan` returns the
unsupported-data-type error; for every byte-sequence input and every string input
`Scan` does not return that error. -/
theorem Scan_unsupported (parse : String → Except String UUID) (a : UUIDArray) :
    (∀ v : Any, (∀ s, v ≠ Any.bytes s) → (∀ s, v ≠ Any.string s) →
      (Scan parse a v).2 = some errUnsupported) ∧
    (∀ s : String, (Scan parse a (Any.bytes s)).2 ≠ some errUnsupported ∧
      (Scan parse a (Any.string s)).2 ≠ some errUnsupported) := by
  constructor
  · intro v hb hs
    cases v with
    | bytes s => exact absurd rfl (hb s)
    | string s => exact absurd rfl (hs s)
    | _ => rfl
  · intro s
    have key : (scanParts parse [] (parts s)).2 ≠ some errUnsupported := by
      intro he
      obtain ⟨_, _, _, err, _, _, _, _, h4, _, _⟩ :=
        scanParts_some parse (parts s) [] (scanParts parse [] (parts s)).1 errUnsupported
          (Prod.ext rfl he)
      exact errInvalid_ne_errUnsupported err h4.symm
    exact ⟨key, key⟩

/-- Witness of C9 at a numeric input. -/
theorem Scan_unsupported_witness :
    ((∀ s, Any.int64 42 ≠ Any.bytes s) ∧ (∀ s, Any.int64 42 ≠ Any.string s)) ∧
      (Scan ParseCanonical [id1] (Any.int64 42)).2 = some errUnsupported :=
  ⟨⟨fun _ h => Any.noConfusion h, fun _ h => Any.noConfusion h⟩,
    (Scan_unsupported ParseCanonical [id1]).1 (Any.int64 42) (fun _ h => Any.noConfusion h)
      (fun _ h => Any.noConfusion h)⟩

/-- C10 (encode of the empty list). For every list of length 0, `Value` returns
exactly the two-character text `{}`. -/
theorem Value_empty (a : UUIDArray) (h : a.length = 0) :
    Value a = (Any.string "\x7b\x7d", none) ∧ "\x7b\x7d".length = 2 := by
  constructor
  · rw [Value, if_pos h]
  · decide

/-- Witness of C10 at the empty list. -/
theorem Value_empty_witness :
    ([] : UUIDArray).length = 0 ∧
      (Value [] = (Any.string "\x7b\x7d", none) ∧ "\x7b\x7d".length = 2) :=
  ⟨rfl, Value_empty [] rfl⟩

end UUIDArray

/-! ## Encoding never fails, error text, type tag -/

namespace UUIDArray

open uuid

/-- C11 (encode cannot fail). For every list of identifiers, `Value` returns a nil
error and a value that is a string. -/
theorem Value_no_error (a : UUIDArray) :
    (Value a).2 = none ∧ ∃ s : String, (Value a).1 = Any.string s := by
  unfold Value
  split
  · exact ⟨rfl, _, rfl⟩
  · exact ⟨rfl, _, rfl⟩

theorem any_tails_append (x y : List Char) :
    (x ++ y).tails.any (fun t => y.isPrefixOf t) = true := by
  induction x with
  | nil =>
    cases y with
    | nil => simp
    | cons c y => simp [List.tails]
  | cons c x ih =>
    show (y.isPrefixOf (c :: (x ++ y)) || (x ++ y).tails.any fun t => y.isPrefixOf t) = true
    rw [ih, Bool.or_true]

/-- A text contains each of its endings. -/
theorem Contains_append (x y : String) : strings.Contains (x ++ y) y = true := by
  unfold strings.Contains
  rw [String.data_append]
  exact any_tails_append x.data y.data

/-- Counterexample to C12: with the canonical parser the error returned for
`{"not-a-uuid"}` is the fixed text followed by the parser's reason, and the
offending token `not-a-uuid` does not occur in it. -/
theorem error_text_lacks_token :
    tokens (parts "\x7b\x22not-a-uuid\x22\x7d") = ["not-a-uuid"] ∧
    Scan ParseCanonical [] (Any.string "\x7b\x22not-a-uuid\x22\x7d") =
      ([], some "invalid UUID in array: invalid UUID length") ∧
    strings.Contains "invalid UUID in array: invalid UUID length" "not-a-uuid" = false := by
  decide

/-- C12, amended. Whenever `Scan` on a string or byte input returns an error, some
candidate `c` that is non-empty after trimming fails to parse with a reason `err`,
and the returned message is exactly the text `invalid UUID in array: ` followed by
`err`: it contains the parse failure reason, and nothing of the token beyond what
the reason itself quotes. -/
theorem Scan_error_text (parse : String → Except String UUID) (a a' : UUIDArray)
    (s e : String) (v : Any) (hv : v = Any.string s ∨ v = Any.bytes s)
    (h : Scan parse a v = (a', some e)) :
    ∃ c ∈ parts s, ∃ err, trimPart c ≠ "" ∧ parse (trimPart c) = Except.error err ∧
      e = "invalid UUID in array: " ++ err ∧ strings.Contains e err = true := by
  have h' : scanParts parse [] (parts s) = (a', some e) := by
    rcases hv with rfl | rfl <;> exact h
  obtain ⟨pre, c, post, err, us, h1, h2, h3, h4, _, _⟩ :=
    scanParts_some parse (parts s) [] a' e h'
  refine ⟨c, by simp [h1], err, h2, h3, h4, ?_⟩
  rw [h4]
  exact Contains_append _ err

/-- Witness of C12, amended, at the input of the counterexample. -/
theorem Scan_error_text_witness :
    ∃ c ∈ parts "\x7b\x22not-a-uuid\x22\x7d", ∃ err, trimPart c ≠ "" ∧
      ParseCanonical (trimPart c) = Except.error err ∧
      "invalid UUID in array: invalid UUID length" = "invalid UUID in array: " ++ err ∧
      strings.Contains "invalid UUID in array: invalid UUID length" err = true :=
  Scan_error_text ParseCanonical [id1] [] "\x7b\x22not-a-uuid\x22\x7d"
    "invalid UUID in array: invalid UUID length" _ (Or.inl rfl) (by decide)

/-- C13 (type tag). For every receiver value, whatever the list holds,
`GormDataType` returns the constant array-of-identifier tag `uuid[]`, and this tag
is neither the plain text tag `text` nor the tag `uuid` of a single identifier. -/
theorem GormDataType_constant (a b : UUIDArray) :
    GormDataType a = "uuid[]" ∧ GormDataType a = GormDataType b ∧
      GormDataType a ≠ "text" ∧ GormDataType a ≠ "uuid" := by
  have h1 : ("uuid[]" : String) ≠ "text" := by decide
  have h2 : ("uuid[]" : String) ≠ "uuid" := by decide
  exact ⟨rfl, rfl, h1, h2⟩

/-! ## Normalisation of a candidate, brace strip, comma split -/

theorem TrimPrefix_plain (s : String) (h : s.data.head? ≠ some '\x7b') :
    strings.TrimPrefix s "\x7b" = s := by
  unfold strings.TrimPrefix
  rw [if_neg]
  intro hp
  cases hs : s.data with
  | nil => rw [hs] at hp; simp [List.isPrefixOf] at hp
  | cons c cs =>
    rw [hs] at hp h
    simp only [String.data, List.isPrefixOf, Bool.and_true, beq_iff_eq] at hp
    exact h (by rw [← hp]; rfl)

theorem TrimSuffix_plain (s : String) (h : s.data.getLast? ≠ some '\x7d') :
    strings.TrimSuffix s "\x7d" = s := by
  unfold strings.TrimSuffix
  rw [if_neg]
  intro hp
  have hp' : [('\x7d' : Char)].isPrefixOf s.data.reverse = true := hp
  rw [← List.head?_reverse] at h
  cases hs : s.data.reverse with
  | nil => rw [hs] at hp'; simp [List.isPrefixOf] at hp'
  | cons c cs =>
    rw [hs] at hp' h
    simp only [List.isPrefixOf, Bool.and_true, beq_iff_eq] at hp'
    exact h (by rw [← hp']; rfl)

theorem TrimPrefix_brace (s : String) : strings.TrimPrefix ("\x7b" ++ s) "\x7b" = s := by
  apply String.ext
  simp [strings.TrimPrefix]

theorem TrimSuffix_brace (s : String) : strings.TrimSuffix (s ++ "\x7d") "\x7d" = s := by
  apply String.ext
  simp [strings.TrimSuffix, List.isSuffixOf]

theorem count_TrimPrefix (s : String) :
    (strings.TrimPrefix s "\x7b").data.count ',' = s.data.count ',' := by
  unfold strings.TrimPrefix
  by_cases h : ("\x7b" : String).data.isPrefixOf s.data = true
  · rw [if_pos h]
    obtain ⟨t, ht⟩ := List.isPrefixOf_iff_prefix.mp h
    have hs : s.data = '\x7b' :: t := ht.symm
    show (s.data.drop 1).count ',' = s.data.count ','
    rw [hs]
    simp [List.count_cons]
  · rw [if_neg h]

theorem count_TrimSuffix (s : String) :
    (strings.TrimSuffix s "\x7d").data.count ',' = s.data.count ',' := by
  unfold strings.TrimSuffix
  by_cases h : ("\x7d" : String).data.isSuffixOf s.data = true
  · rw [if_pos h]
    obtain ⟨t, ht⟩ := List.isSuffixOf_iff_suffix.mp h
    have hs : s.data = t ++ ['\x7d'] := ht.symm
    show (s.data.take (s.data.length - 1)).count ',' = s.data.count ','
    rw [hs, List.take_left' (by simp)]
    simp [List.count_cons]
  · rw [if_neg h]

theorem splitFrom_length (l : List Char) :
    ∀ cur : List Char, (strings.splitFrom [','] 0 cur l).length = l.count ',' + 1 := by
  induction l with
  | nil => intro cur; simp [strings.splitFrom]
  | cons c l ih =>
    intro cur
    rw [strings.splitFrom_comma_cons]
    by_cases hc : c = ','
    · subst hc
      simp [ih]
    · have hc' : ¬ (c == ',') = true := by simpa using hc
      simp [hc, ih, List.count_cons, hc']

/-- The number of candidates is the number of commas of the input plus one. -/
theorem parts_length (s : String) : (parts s).length = s.data.count ',' + 1 := by
  unfold parts strings.Split
  have hs : (",".data = []) = False := by simp
  simp only [hs, if_false, List.length_map]
  rw [splitFrom_length, count_TrimSuffix, count_TrimPrefix]

theorem trimPart_open_quote (u : UUID) : trimPart ("\x22" ++ u.String) = u.String := by
  have h := strings.Trim_pad "\x22" ['\x22'] u.String.data [] (String_ne_nil u) (by simp)
    (by simp)
    (fun c hc => by simpa using (canon_not_special c (String_head u c hc)).2.1)
    (fun c hc => by simpa using (canon_not_special c (String_last u c hc)).2.1)
  have e : "\x22" ++ u.String = String.mk (['\x22'] ++ u.String.data ++ []) :=
    String.ext (by simp)
  unfold trimPart
  rw [e, h]
  exact TrimSpace_String u

theorem trimPart_close_quote (u : UUID) : trimPart (u.String ++ "\x22") = u.String := by
  have h := strings.Trim_pad "\x22" [] u.String.data ['\x22'] (String_ne_nil u) (by simp)
    (by simp)
    (fun c hc => by simpa using (canon_not_special c (String_head u c hc)).2.1)
    (fun c hc => by simpa using (canon_not_special c (String_last u c hc)).2.1)
  have e : u.String ++ "\x22" = String.mk ([] ++ u.String.data ++ ['\x22']) :=
    String.ext (by simp)
  unfold trimPart
  rw [e, h]
  exact TrimSpace_String u

/-- C15 (tolerant brace strip). `Scan` removes one leading opening brace if there is
one and one trailing closing brace if there is one, and requires neither: a text
`s` that neither starts with an opening brace nor ends with a closing brace is
split as it stands, and `Scan` of `s` and of `{` ++ s ++ `}` return the same error
and leave the same list; a brace on one side only is removed alone; and of doubled
braces only the outer one is removed on each side. -/
theorem Scan_brace_strip (parse : String → Except String UUID) (a : UUIDArray) :
    (∀ s : String, s.data.head? ≠ some '\x7b' → s.data.getLast? ≠ some '\x7d' →
      parts s = strings.Split s "," ∧
      Scan parse a (Any.string s) = Scan parse a (Any.string ("\x7b" ++ s ++ "\x7d"))) ∧
    (∀ s : String, parts ("\x7b" ++ s ++ "\x7d") = strings.Split s ",") ∧
    (∀ s : String, s.data.getLast? ≠ some '\x7d' →
      parts ("\x7b" ++ s) = strings.Split s ",") ∧
    (∀ s : String, s.data.head? ≠ some '\x7b' →
      parts (s ++ "\x7d") = strings.Split s ",") ∧
    (∀ s : String, parts ("\x7b\x7b" ++ s ++ "\x7d\x7d") =
      strings.Split ("\x7b" ++ s ++ "\x7d") ",") := by
  have hwrap : ∀ s : String, parts ("\x7b" ++ s ++ "\x7d") = strings.Split s "," := by
    intro s
    unfold parts
    rw [strings.strip_wrap]
  have hplain : ∀ s : String, s.data.head? ≠ some '\x7b' → s.data.getLast? ≠ some '\x7d' →
      parts s = strings.Split s "," := by
    intro s h₁ h₂
    unfold parts
    rw [TrimPrefix_plain s h₁, TrimSuffix_plain s h₂]
  refine ⟨fun s h₁ h₂ => ⟨hplain s h₁ h₂, ?_⟩, hwrap, ?_, ?_, ?_⟩
  · show scanParts parse [] (parts s) = scanParts parse [] (parts ("\x7b" ++ s ++ "\x7d"))
    rw [hplain s h₁ h₂, hwrap s]
  · intro s h₂
    unfold parts
    rw [TrimPrefix_brace, TrimSuffix_plain s h₂]
  · intro s h₁
    have hh : (s ++ "\x7d").data.head? ≠ some '\x7b' := by
      rw [String.data_append]
      cases hs : s.data with
      | nil => decide
      | cons c cs =>
        rw [hs] at h₁
        exact h₁
    unfold parts
    rw [TrimPrefix_plain _ hh, TrimSuffix_brace]
  · intro s
    have e : "\x7b\x7b" ++ s ++ "\x7d\x7d" = "\x7b" ++ ("\x7b" ++ s ++ "\x7d") ++ "\x7d" :=
      String.ext (by simp)
    rw [e, hwrap]

/-- Witness of C15 at an unwrapped list of two identifiers. -/
theorem Scan_brace_strip_witness :
    ("11111111-1111-1111-1111-111111111111,22222222-2222-2222-2222-222222222222".data.head? ≠
        some '\x7b' ∧
      "11111111-1111-1111-1111-111111111111,22222222-2222-2222-2222-222222222222".data.getLast? ≠
        some '\x7d') ∧
    Scan ParseCanonical [id1]
        (Any.string "11111111-1111-1111-1111-111111111111,22222222-2222-2222-2222-222222222222") =
      ([id1, id2], none) ∧
    Scan ParseCanonical [id1]
        (Any.string "11111111-1111-1111-1111-111111111111,22222222-2222-2222-2222-222222222222") =
      Scan ParseCanonical [id1] (Any.string ("\x7b" ++
        "11111111-1111-1111-1111-111111111111,22222222-2222-2222-2222-222222222222" ++ "\x7d")) :=
  ⟨⟨by decide, by decide⟩, by decide,
    ((Scan_brace_strip ParseCanonical [id1]).1 _ (by decide) (by decide)).2⟩

/-- C16 (naive comma split). The candidates are the pieces of the brace-stripped
text between its commas, double quotes playing no part: an input with `k` commas
gives `k + 1` candidates; and for identifiers `a` and `b` the input
`{"` ++ String(a) ++ `,` ++ String(b) ++ `"}` gives the two candidates
`"` ++ String(a) and String(b) ++ `"`, which `Scan` handles one after the other,
so that it leaves `[a, b]` when the parser returns `a` and `b` on their canonical
forms. -/
theorem parts_naive_split (parse : String → Except String UUID) (r : UUIDArray) :
    (∀ s : String, (parts s).length = s.data.count ',' + 1) ∧
    (∀ a b : UUID,
      parts ("\x7b\x22" ++ a.String ++ "," ++ b.String ++ "\x22\x7d") =
        ["\x22" ++ a.String, b.String ++ "\x22"] ∧
      (parse a.String = Except.ok a → parse b.String = Except.ok b →
        Scan parse r (Any.string ("\x7b\x22" ++ a.String ++ "," ++ b.String ++ "\x22\x7d")) =
          ([a, b], none))) := by
  refine ⟨parts_length, fun a b => ?_⟩
  have hp : parts ("\x7b\x22" ++ a.String ++ "," ++ b.String ++ "\x22\x7d") =
      ["\x22" ++ a.String, b.String ++ "\x22"] := by
    have e : "\x7b\x22" ++ a.String ++ "," ++ b.String ++ "\x22\x7d" =
        "\x7b" ++ strings.Join ["\x22" ++ a.String, b.String ++ "\x22"] "," ++ "\x7d" :=
      String.ext (by simp [strings.Join])
    rw [e]
    refine parts_wrap_Join _ (by simp) ?_
    intro q hq c hc
    simp only [List.mem_cons, List.mem_singleton, List.not_mem_nil, or_false] at hq
    rcases hq with rfl | rfl
    · simp only [String.data_append, List.mem_append] at hc
      rcases hc with hc | hc
      · have : c = '\x22' := by simpa using hc
        rw [this]; decide
      · exact String_no_comma a c hc
    · simp only [String.data_append, List.mem_append] at hc
      rcases hc with hc | hc
      · exact String_no_comma b c hc
      · have : c = '\x22' := by simpa using hc
        rw [this]; decide
  refine ⟨hp, fun ha hb => ?_⟩
  show scanParts parse [] (parts _) = _
  rw [hp]
  exact scanParts_of_tokens parse _ [a, b] [] (by
    rw [tokens_cons_token _ _ (by rw [trimPart_open_quote]; exact String_ne_empty a),
      tokens_cons_token _ _ (by rw [trimPart_close_quote]; exact String_ne_empty b),
      trimPart_open_quote, trimPart_close_quote]
    simp [tokens_nil, ha, hb])

/-- Witness of C16 with the canonical parser. -/
theorem parts_naive_split_witness :
    (ParseCanonical id1.String = Except.ok id1 ∧ ParseCanonical id2.String = Except.ok id2) ∧
    Scan ParseCanonical [] (Any.string
      ("\x7b\x22" ++ id1.String ++ "," ++ id2.String ++ "\x22\x7d")) = ([id1, id2], none) :=
  ⟨⟨ParseCanonical_String id1, ParseCanonical_String id2⟩,
    ((parts_naive_split ParseCanonical []).2 id1 id2).2 (ParseCanonical_String id1)
      (ParseCanonical_String id2)⟩

/-- C17 (byte/text equivalence). For every text `s`, `Scan` applied to the byte
sequence holding `s` and `Scan` applied to the string `s` return the same error
and leave the receiver with the same list. -/
theorem Scan_bytes_eq_string (parse : String → Except String UUID) (a : UUIDArray)
    (s : String) : Scan parse a (Any.bytes s) = Scan parse a (Any.string s) :=
  rfl

/-- C18 (receiver overwrite). For every string input and every byte input, the
error and the final contents of the receiver are the same whatever the receiver
held before the call; in particular they are those of a call on an empty
receiver, so earlier contents are replaced and nothing is appended to them. -/
theorem Scan_overwrites_receiver (parse : String → Except String UUID) (a₁ a₂ : UUIDArray)
    (s : String) :
    Scan parse a₁ (Any.string s) = Scan parse a₂ (Any.string s) ∧
    Scan parse a₁ (Any.bytes s) = Scan parse a₂ (Any.bytes s) ∧
    Scan parse a₁ (Any.string s) = Scan parse [] (Any.string s) ∧
    ∀ a', Scan parse a₁ (Any.string s) = (a', none) →
      (tokens (parts s)).map parse = a'.map Except.ok :=
  ⟨rfl, rfl, rfl, fun a' h => by
    obtain ⟨us, h1, h2⟩ := scanParts_none parse (parts s) [] a' h
    rw [h2, h1, List.nil_append]⟩

/-- Witness of C18: a receiver holding two identifiers is left with the single
identifier of the input. -/
theorem Scan_overwrites_receiver_witness :
    Scan ParseCanonical [id2, id2]
        (Any.string "\x7b11111111-1111-1111-1111-111111111111\x7d") = ([id1], none) ∧
    (tokens (parts "\x7b11111111-1111-1111-1111-111111111111\x7d")).map ParseCanonical =
      [id1].map Except.ok :=
  ⟨by decide, (Scan_overwrites_receiver ParseCanonical [id2, id2] []
    "\x7b11111111-1111-1111-1111-111111111111\x7d").2.2.2 [id1] (by decide)⟩

/-- C19 (unsupported input leaves the receiver untouched). Whenever `Scan` returns
the unsupported-data-type error, which it does for every input that is neither a
byte sequence nor a string, the receiver holds exactly the list it held before
the call. -/
theorem Scan_unsupported_keeps_receiver (parse : String → Except String UUID)
    (a : UUIDArray) (v : Any) (h : (Scan parse a v).2 = some errUnsupported) :
    (Scan parse a v).1 = a := by
  have key : ∀ s : String, (scanParts parse [] (parts s)).2 ≠ some errUnsupported := by
    intro s he
    obtain ⟨_, _, _, err, _, _, _, _, h4, _, _⟩ :=
      scanParts_some parse (parts s) [] (scanParts parse [] (parts s)).1 errUnsupported
        (Prod.ext rfl he)
    exact errInvalid_ne_errUnsupported err h4.symm
  cases v with
  | bytes s => exact absurd h (key s)
  | string s => exact absurd h (key s)
  | _ => rfl

/-- Witness of C19 at a nil input and a receiver holding two identifiers. -/
theorem Scan_unsupported_keeps_receiver_witness :
    (Scan ParseCanonical [id1, id2] Any.nil).2 = some errUnsupported ∧
      (Scan ParseCanonical [id1, id2] Any.nil).1 = [id1, id2] :=
  ⟨rfl, Scan_unsupported_keeps_receiver ParseCanonical [id1, id2] Any.nil rfl⟩

end UUIDArray

/-! ## Candidates that are skipped -/

namespace UUIDArray

open uuid

end UUIDArray
